import Mathlib

/-!
Verification of the Mandelbrot renderer (`src/main.rs`).

The rendering core is shallowly embedded as follows:

* `Complex<f64>` is modelled as a pair of rationals: the exact-arithmetic
  idealization of the program's 64-bit floats.  All orbit computations,
  coordinate maps and comparisons are therefore exact.
* `usize` values are modelled as `ℕ`; the one `as u8` cast in `render` is
  modelled with an explicit `% 256`.
* The pixel buffer is a `List ℕ`; the in-place writes
  `pixel[row * bounds.0 + col] = …` are modelled with `List.set` folds.
* `assert_eq!` / worker panics are modelled with `Option`: `none` is an abort
  of the whole render.
* `pixels.chunks_mut(sz)` is modelled by `chunksList sz`, and the scoped
  spawn/join over disjoint bands is modelled by rendering the bands in index
  order and concatenating the results (the bands are consecutive disjoint
  sub-slices of the buffer, which is proved below).
-/

namespace Mandelbrot

/-- A complex number, `Complex<f64>` from the `num_complex` crate, with the
floating-point components modelled as exact rationals. -/
@[ext]
structure Complex where
  re : ℚ
  im : ℚ
deriving DecidableEq, Repr

/-- Complex multiplication, as in `num_complex`. -/
instance : Mul Complex :=
  ⟨fun a b => ⟨a.re * b.re - a.im * b.im, a.re * b.im + a.im * b.re⟩⟩

/-- Complex addition, as in `num_complex`. -/
instance : Add Complex :=
  ⟨fun a b => ⟨a.re + b.re, a.im + b.im⟩⟩

/-- `Complex::norm_sqr` from `num_complex`: `re * re + im * im`. -/
def Complex.norm_sqr (z : Complex) : ℚ :=
  z.re * z.re + z.im * z.im

/-- `pixel_to_point` from `src/main.rs`.  `bounds` is `(width, height)` and
`pixel` is `(column, row)`, both `usize` pairs in the source. -/
def pixel_to_point (bounds : ℕ × ℕ) (pixel : ℕ × ℕ)
    (upper_left_corner lower_right_corner : Complex) : Complex :=
  let width : ℚ := lower_right_corner.re - upper_left_corner.re
  let height : ℚ := upper_left_corner.im - lower_right_corner.im
  ⟨upper_left_corner.re + (pixel.1 : ℚ) * (width / (bounds.1 : ℚ)),
   upper_left_corner.im - (pixel.2 : ℚ) * (height / (bounds.2 : ℚ))⟩

/-- The `for i in 0..limit` loop of `escape_time`: `z` is the current value,
`i` the current loop index, and the last argument the number of remaining
iterations. -/
def escape_time_go (c z : Complex) (i : ℕ) : ℕ → Option ℕ
  | 0 => none
  | fuel + 1 =>
    if 8 < z.norm_sqr then some i
    else escape_time_go c (z * z + c) (i + 1) fuel

/-- `escape_time` from `src/main.rs`: starting from `z = 0`, iterate
`z = z * z + c`, returning `some i` at the first index `i < limit` whose `z`
(checked before the update) has `norm_sqr > 8.0`. -/
def escape_time (c : Complex) (limit : ℕ) : Option ℕ :=
  escape_time_go c ⟨0, 0⟩ 0 limit

/-- The mathematical orbit `z_0 = 0`, `z_(n+1) = z_n * z_n + c` that
`escape_time` steps through. -/
def orbit (c : Complex) : ℕ → Complex
  | 0 => ⟨0, 0⟩
  | n + 1 => orbit c n * orbit c n + c

/-- The value `render` stores for pixel `(col, row)`:
`match escape_time(point, 255) { None => 0, Some(count) => 255 - count as u8 }`.
The `as u8` cast is the explicit `% 256`. -/
def render_pixel_value (bounds : ℕ × ℕ) (ul lr : Complex) (col row : ℕ) : ℕ :=
  match escape_time (pixel_to_point bounds (col, row) ul lr) 255 with
  | none => 0
  | some count => 255 - count % 256

/-- `render` from `src/main.rs`.  The `assert_eq!(pixel.len(), bounds.0 * bounds.1)`
is the `Option` guard (`none` = abort); the two nested `for` loops writing
`pixel[row * bounds.0 + col]` are the two nested folds of `List.set`. -/
def render (bounds : ℕ × ℕ) (pixel : List ℕ)
    (upper_left_corner lower_right_corner : Complex) : Option (List ℕ) :=
  if pixel.length = bounds.1 * bounds.2 then
    some ((List.range bounds.2).foldl (fun buf row =>
      (List.range bounds.1).foldl (fun buf2 col =>
        buf2.set (row * bounds.1 + col)
          (render_pixel_value bounds upper_left_corner lower_right_corner col row)) buf) pixel)
  else
    none

/-- `slice::chunks_mut(csz)`: consecutive chunks of `csz` elements, the last
one possibly shorter, none empty.  (In Rust `csz = 0` panics; the claims below
only use `csz > 0`.) -/
def chunksList {α : Type} (csz : ℕ) : List α → List (List α)
  | [] => []
  | a :: l =>
    if csz = 0 then []
    else (a :: l).take csz :: chunksList csz ((a :: l).drop csz)
termination_by l => l.length
decreasing_by
  simp only [List.length_drop, List.length_cons]
  omega

/-- The `for (i, band) in bands.into_iter().enumerate()` loop of
`render_concurrent`, with the spawned `render` calls over disjoint consecutive
bands modelled as a left-to-right traversal whose results are concatenated;
a band whose `render` aborts aborts the whole render (`crossbeam::scope(..).unwrap()`). -/
def runBands (bounds : ℕ × ℕ) (upper_left lower_right : Complex) (rows_per_band : ℕ) :
    List (ℕ × List ℕ) → Option (List ℕ)
  | [] => some []
  | (i, band) :: rest =>
    let top := rows_per_band * i
    let height := band.length / bounds.1
    let band_bounds := (bounds.1, height)
    let band_upper_left := pixel_to_point bounds (0, top) upper_left lower_right
    let band_lower_right :=
      pixel_to_point bounds (bounds.1, top + height) upper_left lower_right
    match render band_bounds band band_upper_left band_lower_right,
          runBands bounds upper_left lower_right rows_per_band rest with
    | some out, some outs => some (out ++ outs)
    | _, _ => none

/-- `render_concurrent` from `src/main.rs`: allocate a zero-filled buffer,
split it into bands of `rows_per_band * width` pixels, render every band. -/
def render_concurrent (bounds : ℕ × ℕ) (upper_left lower_right : Complex) :
    Option (List ℕ) :=
  let pixels : List ℕ := List.replicate (bounds.1 * bounds.2) 0
  let threads : ℕ := 8
  let rows_per_band : ℕ := bounds.2 / threads + 1
  let bands : List (List ℕ) := chunksList (rows_per_band * bounds.1) pixels
  runBands bounds upper_left lower_right rows_per_band bands.enum

/-- Rows `t, t+1, …, t+m-1` of the image determined by `bounds`, `ul`, `lr`,
as a flat row-major buffer. -/
def rowsSeg (bounds : ℕ × ℕ) (ul lr : Complex) (t m : ℕ) : List ℕ :=
  (List.range' t m).flatMap fun row =>
    (List.range bounds.1).map fun col => render_pixel_value bounds ul lr col row

/-- The real orbit `u_0 = 0`, `u_(n+1) = u_n ^ 2 + a`: the restriction of
`orbit` to real parameters. -/
def realOrbit (a : ℚ) : ℕ → ℚ
  | 0 => 0
  | n + 1 => realOrbit a n * realOrbit a n + a

theorem Complex.mk_mul_mk (a b c d : ℚ) :
    (⟨a, b⟩ * ⟨c, d⟩ : Complex) = ⟨a * c - b * d, a * d + b * c⟩ := rfl

theorem Complex.mk_add_mk (a b c d : ℚ) :
    (⟨a, b⟩ + ⟨c, d⟩ : Complex) = ⟨a + c, b + d⟩ := rfl

theorem Complex.norm_sqr_mk (a b : ℚ) : Complex.norm_sqr ⟨a, b⟩ = a * a + b * b := rfl

example : escape_time ⟨3, 0⟩ 4 = some 1 := by
  norm_num [escape_time, escape_time_go, Complex.norm_sqr_mk, Complex.mk_mul_mk,
    Complex.mk_add_mk]
example : pixel_to_point (100, 200) (25, 75) ⟨-1, 1⟩ ⟨1, -1⟩ = ⟨-1/2, 1/4⟩ := by
  norm_num [pixel_to_point]
example : chunksList 2 [1, 2, 3, 4, 5] = [[1, 2], [3, 4], [5]] := by
  norm_num [chunksList]

/-! ## The escape-time loop -/

theorem orbit_zero (c : Complex) : orbit c 0 = ⟨0, 0⟩ := rfl

theorem orbit_succ (c : Complex) (n : ℕ) : orbit c (n + 1) = orbit c n * orbit c n + c := rfl

/-- One step of the loop, starting at loop index `n` with the loop's invariant
value `z = orbit c n`. -/
theorem escape_time_go_eq_some_iff (c : Complex) (fuel : ℕ) :
    ∀ n k, escape_time_go c (orbit c n) n fuel = some k ↔
      n ≤ k ∧ k < n + fuel ∧ 8 < (orbit c k).norm_sqr ∧
        ∀ j, n ≤ j → j < k → (orbit c j).norm_sqr ≤ 8 := by
  induction fuel with
  | zero =>
    intro n k
    simp only [escape_time_go]
    constructor
    · intro h; cases h
    · rintro ⟨h1, h2, -, -⟩; omega
  | succ fuel ih =>
    intro n k
    simp only [escape_time_go]
    by_cases h : 8 < (orbit c n).norm_sqr
    · simp only [if_pos h]
      constructor
      · rintro ⟨rfl⟩
        exact ⟨le_refl n, by omega, h, fun j h1 h2 => by omega⟩
      · rintro ⟨h1, h2, h3, h4⟩
        rcases eq_or_lt_of_le h1 with rfl | hlt
        · rfl
        · exact absurd (h4 n (le_refl n) hlt) (not_le.mpr h)
    · simp only [if_neg h]
      rw [show orbit c n * orbit c n + c = orbit c (n + 1) from rfl, ih (n + 1) k]
      constructor
      · rintro ⟨h1, h2, h3, h4⟩
        refine ⟨by omega, by omega, h3, fun j hj1 hj2 => ?_⟩
        rcases eq_or_lt_of_le hj1 with rfl | hj
        · exact le_of_not_lt h
        · exact h4 j (by omega) hj2
      · rintro ⟨h1, h2, h3, h4⟩
        have hnk : n ≠ k := by rintro rfl; exact h h3
        exact ⟨by omega, by omega, h3, fun j hj1 hj2 => h4 j (by omega) hj2⟩

theorem escape_time_go_eq_none_iff (c : Complex) (fuel : ℕ) :
    ∀ n, escape_time_go c (orbit c n) n fuel = none ↔
      ∀ j, n ≤ j → j < n + fuel → (orbit c j).norm_sqr ≤ 8 := by
  induction fuel with
  | zero =>
    intro n
    simp only [escape_time_go]
    exact ⟨fun _ j h1 h2 => by omega, fun _ => trivial⟩
  | succ fuel ih =>
    intro n
    simp only [escape_time_go]
    by_cases h : 8 < (orbit c n).norm_sqr
    · simp only [if_pos h]
      constructor
      · intro hc; cases hc
      · intro hall
        exact absurd (hall n (le_refl n) (by omega)) (not_le.mpr h)
    · simp only [if_neg h]
      rw [show orbit c n * orbit c n + c = orbit c (n + 1) from rfl, ih (n + 1)]
      constructor
      · intro hall j hj1 hj2
        rcases eq_or_lt_of_le hj1 with rfl | hj
        · exact le_of_not_lt h
        · exact hall j (by omega) (by omega)
      · intro hall j hj1 hj2
        exact hall j (by omega) (by omega)

theorem escape_time_eq_some_iff (c : Complex) (limit k : ℕ) :
    escape_time c limit = some k ↔
      k < limit ∧ 8 < (orbit c k).norm_sqr ∧ ∀ j, j < k → (orbit c j).norm_sqr ≤ 8 := by
  rw [show escape_time c limit = escape_time_go c (orbit c 0) 0 limit from rfl,
    escape_time_go_eq_some_iff c limit 0 k]
  constructor
  · rintro ⟨-, h2, h3, h4⟩
    exact ⟨by omega, h3, fun j hj => h4 j (by omega) hj⟩
  · rintro ⟨h1, h2, h3⟩
    exact ⟨by omega, by omega, h2, fun j _ hj => h3 j hj⟩

theorem escape_time_eq_none_iff (c : Complex) (limit : ℕ) :
    escape_time c limit = none ↔ ∀ j, j < limit → (orbit c j).norm_sqr ≤ 8 := by
  rw [show escape_time c limit = escape_time_go c (orbit c 0) 0 limit from rfl,
    escape_time_go_eq_none_iff c limit 0]
  exact ⟨fun h j hj => h j (by omega) (by omega), fun h j _ hj => h j (by omega)⟩

/-- If `escape_time` reports an escape, the index is below the limit. -/
theorem escape_time_lt_limit {c : Complex} {limit k : ℕ}
    (h : escape_time c limit = some k) : k < limit :=
  ((escape_time_eq_some_iff c limit k).mp h).1

/-- The very first checked value is `z = 0`, whose `norm_sqr` is `0 ≤ 8`, so the
loop never reports an escape at index `0`. -/
theorem escape_time_ne_some_zero (c : Complex) (limit : ℕ) :
    escape_time c limit ≠ some 0 := by
  intro h
  have h2 := ((escape_time_eq_some_iff c limit 0).mp h).2.1
  rw [orbit_zero] at h2
  norm_num [Complex.norm_sqr_mk] at h2

/-! ## The render write loops -/

/-- The inner column loop preserves the buffer length. -/
theorem inner_fold_length (f : ℕ → ℕ) (s : ℕ) :
    ∀ (k : ℕ) (b : List ℕ),
      ((List.range k).foldl (fun acc c => acc.set (s + c) (f c)) b).length = b.length := by
  intro k
  induction k with
  | zero => intro b; simp
  | succ k ih =>
    intro b
    rw [List.range_succ, List.foldl_append, List.foldl_cons, List.foldl_nil,
      List.length_set, ih]

/-- The inner column loop writes exactly the positions `s + c`, `c < k`, and
leaves everything else untouched. -/
theorem inner_fold_getElem? (f : ℕ → ℕ) (s : ℕ) :
    ∀ (k : ℕ) (b : List ℕ) (i : ℕ),
      ((List.range k).foldl (fun acc c => acc.set (s + c) (f c)) b)[i]? =
        if s ≤ i ∧ i < s + k ∧ i < b.length then some (f (i - s)) else b[i]? := by
  intro k
  induction k with
  | zero =>
    intro b i
    simp only [List.range_zero, List.foldl_nil]
    rw [if_neg (by omega : ¬(s ≤ i ∧ i < s + 0 ∧ i < b.length))]
  | succ k ih =>
    intro b i
    rw [List.range_succ, List.foldl_append, List.foldl_cons, List.foldl_nil,
      List.getElem?_set, inner_fold_length, ih b i]
    by_cases hi : s + k = i
    · subst hi
      rw [if_pos rfl]
      by_cases h2 : s + k < b.length
      · rw [if_pos h2,
          if_pos (show s ≤ s + k ∧ s + k < s + (k + 1) ∧ s + k < b.length by omega)]
        have hk : s + k - s = k := by omega
        rw [hk]
      · rw [if_neg h2,
          if_neg (show ¬(s ≤ s + k ∧ s + k < s + (k + 1) ∧ s + k < b.length) by omega)]
        exact (List.getElem?_eq_none (by omega)).symm
    · rw [if_neg hi]
      by_cases h3 : s ≤ i ∧ i < s + k ∧ i < b.length
      · rw [if_pos h3, if_pos (show s ≤ i ∧ i < s + (k + 1) ∧ i < b.length by omega)]
      · rw [if_neg h3, if_neg (show ¬(s ≤ i ∧ i < s + (k + 1) ∧ i < b.length) by omega)]

/-- The nested row/column loops preserve the buffer length. -/
theorem outer_fold_length (bounds : ℕ × ℕ) (ul lr : Complex) :
    ∀ (H' : ℕ) (b : List ℕ),
      ((List.range H').foldl (fun buf row =>
          (List.range bounds.1).foldl (fun buf2 col =>
            buf2.set (row * bounds.1 + col)
              (render_pixel_value bounds ul lr col row)) buf) b).length = b.length := by
  intro H'
  induction H' with
  | zero => intro b; simp
  | succ H' ih =>
    intro b
    rw [List.range_succ, List.foldl_append, List.foldl_cons, List.foldl_nil,
      inner_fold_length, ih]

/-- The nested row/column loops of `render`, run for `H'` rows: position `i` ends
up holding the pixel value of row `i / width`, column `i % width`. -/
theorem outer_fold_getElem? (bounds : ℕ × ℕ) (ul lr : Complex) :
    ∀ (H' : ℕ) (b : List ℕ) (i : ℕ),
      ((List.range H').foldl (fun buf row =>
          (List.range bounds.1).foldl (fun buf2 col =>
            buf2.set (row * bounds.1 + col)
              (render_pixel_value bounds ul lr col row)) buf) b)[i]? =
        if i < H' * bounds.1 ∧ i < b.length
        then some (render_pixel_value bounds ul lr (i % bounds.1) (i / bounds.1))
        else b[i]? := by
  intro H'
  induction H' with
  | zero =>
    intro b i
    simp only [List.range_zero, List.foldl_nil]
    rw [if_neg (by omega : ¬(i < 0 * bounds.1 ∧ i < b.length))]
  | succ H' ih =>
    intro b i
    rw [List.range_succ, List.foldl_append, List.foldl_cons, List.foldl_nil,
      inner_fold_getElem?, outer_fold_length, ih b i]
    by_cases hrow : H' * bounds.1 ≤ i ∧ i < H' * bounds.1 + bounds.1 ∧ i < b.length
    · rw [if_neg (by omega : ¬(i < H' * bounds.1 ∧ i < b.length)), if_pos hrow,
        if_pos (by rw [Nat.succ_mul]; omega : i < (H' + 1) * bounds.1 ∧ i < b.length)]
      have hW : 0 < bounds.1 := by omega
      have hmc : bounds.1 * H' = H' * bounds.1 := Nat.mul_comm _ _
      obtain ⟨r, hir⟩ : ∃ r, i = bounds.1 * H' + r := ⟨i - H' * bounds.1, by omega⟩
      have hr : r < bounds.1 := by omega
      subst hir
      have hdiv : (bounds.1 * H' + r) / bounds.1 = H' := by
        rw [Nat.mul_add_div hW, Nat.div_eq_of_lt hr, Nat.add_zero]
      have hmod : (bounds.1 * H' + r) % bounds.1 = r := by
        rw [Nat.mul_add_mod, Nat.mod_eq_of_lt hr]
      rw [hdiv, hmod]
      have hsub : bounds.1 * H' + r - H' * bounds.1 = r := by omega
      rw [hsub]
    · rw [if_neg hrow]
      by_cases hin : i < H' * bounds.1 ∧ i < b.length
      · rw [if_pos hin,
          if_pos (by rw [Nat.succ_mul]; omega : i < (H' + 1) * bounds.1 ∧ i < b.length)]
      · rw [if_neg hin,
          if_neg (by rw [Nat.succ_mul]; omega : ¬(i < (H' + 1) * bounds.1 ∧ i < b.length))]

/-- Length of a row segment: `m` rows of `width` pixels. -/
theorem rowsSeg_length (bounds : ℕ × ℕ) (ul lr : Complex) :
    ∀ (m t : ℕ), (rowsSeg bounds ul lr t m).length = m * bounds.1 := by
  intro m
  induction m with
  | zero => intro t; simp [rowsSeg]
  | succ m ih =>
    intro t
    simp only [rowsSeg] at ih ⊢
    rw [List.range'_succ, List.flatMap_cons, List.length_append, List.length_map,
      List.length_range, ih (t + 1), Nat.succ_mul]
    omega

/-- Indexing into a row segment. -/
theorem rowsSeg_getElem? (bounds : ℕ × ℕ) (ul lr : Complex) (hW : 0 < bounds.1) :
    ∀ (m t i : ℕ),
      (rowsSeg bounds ul lr t m)[i]? =
        if i < m * bounds.1
        then some (render_pixel_value bounds ul lr (i % bounds.1) (t + i / bounds.1))
        else none := by
  intro m
  induction m with
  | zero =>
    intro t i
    rw [if_neg (by omega : ¬ i < 0 * bounds.1)]
    simp [rowsSeg]
  | succ m ih =>
    intro t i
    simp only [rowsSeg]
    rw [List.range'_succ, List.flatMap_cons, List.getElem?_append,
      List.length_map, List.length_range]
    by_cases hi : i < bounds.1
    · rw [if_pos hi, List.getElem?_map, List.getElem?_range hi]
      rw [if_pos (by rw [Nat.succ_mul]; omega : i < (m + 1) * bounds.1)]
      rw [Nat.mod_eq_of_lt hi, Nat.div_eq_of_lt hi]
      rfl
    · rw [if_neg hi]
      rw [show (List.range' (t + 1) m).flatMap (fun row =>
          (List.range bounds.1).map fun col => render_pixel_value bounds ul lr col row) =
        rowsSeg bounds ul lr (t + 1) m from rfl]
      rw [ih (t + 1) (i - bounds.1)]
      obtain ⟨r, hir⟩ : ∃ r, i = bounds.1 + r := ⟨i - bounds.1, by omega⟩
      subst hir
      have hd : (bounds.1 + r) / bounds.1 = 1 + r / bounds.1 := by
        have h1 := Nat.mul_add_div hW 1 r
        rw [Nat.mul_one] at h1
        exact h1
      have hm : (bounds.1 + r) % bounds.1 = r % bounds.1 := by
        have h1 := Nat.mul_add_mod bounds.1 1 r
        rw [Nat.mul_one] at h1
        exact h1
      have hsub : bounds.1 + r - bounds.1 = r := by omega
      rw [hsub]
      by_cases h2 : r < m * bounds.1
      · rw [if_pos h2, if_pos (by rw [Nat.succ_mul]; omega : bounds.1 + r < (m + 1) * bounds.1)]
        rw [hd, hm]
        congr 2
        omega
      · rw [if_neg h2,
          if_neg (by rw [Nat.succ_mul]; omega : ¬ bounds.1 + r < (m + 1) * bounds.1)]

/-- `render` on a well-sized buffer succeeds and its output is `rowsSeg 0 height`:
the rows of the image, in row-major order. -/
theorem render_eq_some (bounds : ℕ × ℕ) (pixel : List ℕ) (ul lr : Complex)
    (h : pixel.length = bounds.1 * bounds.2) :
    render bounds pixel ul lr = some (rowsSeg bounds ul lr 0 bounds.2) := by
  rw [render, if_pos h]
  congr 1
  apply List.ext_getElem?
  intro i
  rw [outer_fold_getElem?, h]
  have hmc : bounds.2 * bounds.1 = bounds.1 * bounds.2 := Nat.mul_comm _ _
  by_cases hW : 0 < bounds.1
  · rw [rowsSeg_getElem? bounds ul lr hW]
    by_cases hi : i < bounds.2 * bounds.1 ∧ i < bounds.1 * bounds.2
    · rw [if_pos hi, if_pos (by omega : i < bounds.2 * bounds.1)]
      rw [Nat.zero_add]
    · rw [if_neg hi, if_neg (by omega : ¬ i < bounds.2 * bounds.1)]
      exact List.getElem?_eq_none (by omega)
  · have h0 : bounds.1 = 0 := by omega
    have hlen0 : pixel.length = 0 := by rw [h, h0, Nat.zero_mul]
    rw [if_neg (by rw [h0]; omega : ¬(i < bounds.2 * bounds.1 ∧ i < bounds.1 * bounds.2)),
      List.getElem?_eq_none (by omega : pixel.length ≤ i), List.getElem?_eq_none]
    rw [rowsSeg_length, h0, Nat.mul_zero]
    omega

/-- `render` fails exactly on a length mismatch. -/
theorem render_eq_none_iff (bounds : ℕ × ℕ) (pixel : List ℕ) (ul lr : Complex) :
    render bounds pixel ul lr = none ↔ pixel.length ≠ bounds.1 * bounds.2 := by
  by_cases h : pixel.length = bounds.1 * bounds.2
  · rw [render_eq_some bounds pixel ul lr h]
    simp [h]
  · rw [render, if_neg h]
    simp [h]

/-! ## Buffer chunking -/

theorem chunksList_nil {α : Type} (csz : ℕ) : chunksList csz ([] : List α) = [] := by
  simp [chunksList]

theorem chunksList_cons_of_ne {α : Type} (csz : ℕ) (hcsz : csz ≠ 0) (l : List α)
    (hl : l ≠ []) :
    chunksList csz l = l.take csz :: chunksList csz (l.drop csz) := by
  match l with
  | [] => exact absurd rfl hl
  | a :: l' => simp [chunksList, hcsz]

/-- The chunks of a buffer, concatenated back together, are the buffer:
`chunks_mut` partitions the slice consecutively, dropping nothing. -/
theorem chunksList_flatten {α : Type} (csz : ℕ) (hcsz : csz ≠ 0) :
    ∀ l : List α, (chunksList csz l).flatten = l := by
  have H : ∀ (n : ℕ) (l : List α), l.length ≤ n → (chunksList csz l).flatten = l := by
    intro n
    induction n with
    | zero =>
      intro l hl
      have h0 : l = [] := List.eq_nil_of_length_eq_zero (by omega)
      subst h0
      simp [chunksList_nil]
    | succ n ih =>
      intro l hl
      match l with
      | [] => simp [chunksList_nil]
      | a :: l' =>
        rw [chunksList_cons_of_ne csz hcsz _ (by simp), List.flatten_cons,
          ih ((a :: l').drop csz)
            (by simp only [List.length_drop, List.length_cons]
                simp only [List.length_cons] at hl
                omega),
          List.take_append_drop]
  exact fun l => H l.length l (le_refl _)

/-- The `i`-th chunk is the slice `[csz * i, csz * i + csz)` of the buffer
(clipped at the end), present exactly when `csz * i` is inside the buffer. -/
theorem chunksList_getElem? {α : Type} (csz : ℕ) (hcsz : csz ≠ 0) :
    ∀ (l : List α) (i : ℕ),
      (chunksList csz l)[i]? =
        if csz * i < l.length then some ((l.drop (csz * i)).take csz) else none := by
  have H : ∀ (n : ℕ) (l : List α), l.length ≤ n → ∀ i,
      (chunksList csz l)[i]? =
        if csz * i < l.length then some ((l.drop (csz * i)).take csz) else none := by
    intro n
    induction n with
    | zero =>
      intro l hl i
      have h0 : l = [] := List.eq_nil_of_length_eq_zero (by omega)
      subst h0
      simp [chunksList_nil]
    | succ n ih =>
      intro l hl i
      match l with
      | [] => simp [chunksList_nil]
      | a :: l' =>
        rw [chunksList_cons_of_ne csz hcsz _ (by simp)]
        match i with
        | 0 =>
          rw [List.getElem?_cons_zero, Nat.mul_zero, List.drop_zero,
            if_pos (by simp : 0 < (a :: l').length)]
        | i + 1 =>
          rw [List.getElem?_cons_succ,
            ih ((a :: l').drop csz)
              (by simp only [List.length_drop, List.length_cons]
                  simp only [List.length_cons] at hl
                  omega) i,
            List.drop_drop, List.length_drop]
          have hmul : csz + csz * i = csz * (i + 1) := by rw [Nat.mul_succ]; omega
          rw [hmul]
          by_cases hc : csz * (i + 1) < (a :: l').length
          · rw [if_pos hc, if_pos (show csz * i < (a :: l').length - csz by
              rw [← hmul] at hc; omega)]
          · rw [if_neg hc, if_neg (show ¬ csz * i < (a :: l').length - csz by
              rw [← hmul] at hc; omega)]
  exact fun l => H l.length l (le_refl _)

theorem getLast?_cons_of_ne_nil {α : Type} (a : α) (l : List α) (h : l ≠ []) :
    (a :: l).getLast? = l.getLast? := by
  match l with
  | [] => exact absurd rfl h
  | b :: l' => exact List.getLast?_cons_cons

/-- The last chunk holds the remainder of the buffer: `l.length % csz` elements
when the chunk size does not divide the buffer length, a full `csz` elements
when it does. -/
theorem chunksList_getLast?_length {α : Type} (csz : ℕ) (hcsz : csz ≠ 0) :
    ∀ (l : List α), l ≠ [] → ∀ b, (chunksList csz l).getLast? = some b →
      b.length = if l.length % csz = 0 then csz else l.length % csz := by
  have H : ∀ (n : ℕ) (l : List α), l.length ≤ n → l ≠ [] →
      ∀ b, (chunksList csz l).getLast? = some b →
        b.length = if l.length % csz = 0 then csz else l.length % csz := by
    intro n
    induction n with
    | zero =>
      intro l hl hne
      exact absurd (List.eq_nil_of_length_eq_zero (by omega)) hne
    | succ n ih =>
      intro l hl hne b hb
      rw [chunksList_cons_of_ne csz hcsz _ hne] at hb
      by_cases hd : l.drop csz = []
      · rw [hd, chunksList_nil, List.getLast?_singleton, Option.some_inj] at hb
        subst hb
        have hlen : l.length ≤ csz := by
          have := List.length_drop csz l
          rw [hd] at this
          simp at this
          omega
        have hpos : 0 < l.length := List.length_pos.mpr hne
        rw [List.length_take]
        rcases eq_or_lt_of_le hlen with heq | hlt
        · rw [heq, Nat.mod_self, if_pos rfl]
          omega
        · rw [Nat.mod_eq_of_lt hlt, if_neg (by omega), Nat.min_def, if_neg (by omega)]
      · have hc2 : chunksList csz (l.drop csz) ≠ [] := by
          rw [chunksList_cons_of_ne csz hcsz _ hd]
          exact List.cons_ne_nil _ _
        rw [getLast?_cons_of_ne_nil _ _ hc2] at hb
        have hlen : csz < l.length := by
          have h1 := List.length_drop csz l
          have h2 : 0 < (l.drop csz).length := List.length_pos.mpr hd
          omega
        have hrec := ih (l.drop csz)
          (by rw [List.length_drop]; omega) hd b hb
        rw [List.length_drop] at hrec
        have hmod : (l.length - csz) % csz = l.length % csz := by
          have h3 : l.length - csz + csz = l.length := by omega
          rw [← Nat.add_mod_right (l.length - csz) csz, h3]
        rw [hmod] at hrec
        exact hrec
  exact fun l => H l.length l (le_refl _)

/-! ## Band-local coordinates agree with global coordinates -/

theorem pixel_to_point_re (bounds pixel : ℕ × ℕ) (ul lr : Complex) :
    (pixel_to_point bounds pixel ul lr).re =
      ul.re + (pixel.1 : ℚ) * ((lr.re - ul.re) / (bounds.1 : ℚ)) := rfl

theorem pixel_to_point_im (bounds pixel : ℕ × ℕ) (ul lr : Complex) :
    (pixel_to_point bounds pixel ul lr).im =
      ul.im - (pixel.2 : ℚ) * ((ul.im - lr.im) / (bounds.2 : ℚ)) := rfl

/-- The key identity behind `render_concurrent`: rendering a band of height `h`
starting at row `t` in its own local frame — with corners obtained from the
global `pixel_to_point` at rows `t` and `t + h` — maps band-local pixel
`(col, r)` to the same point as the global frame maps `(col, t + r)`. -/
theorem pixel_to_point_band (bounds : ℕ × ℕ) (ul lr : Complex) (t h col r : ℕ)
    (hW : bounds.1 ≠ 0) (hh : h ≠ 0) :
    pixel_to_point (bounds.1, h) (col, r)
        (pixel_to_point bounds (0, t) ul lr)
        (pixel_to_point bounds (bounds.1, t + h) ul lr) =
      pixel_to_point bounds (col, t + r) ul lr := by
  have hW' : (bounds.1 : ℚ) ≠ 0 := Nat.cast_ne_zero.mpr hW
  have hh' : (h : ℚ) ≠ 0 := Nat.cast_ne_zero.mpr hh
  ext
  · simp only [pixel_to_point_re]
    push_cast
    field_simp
  · simp only [pixel_to_point_im, pixel_to_point_re]
    push_cast
    set d : ℚ := (ul.im - lr.im) / ((bounds.2 : ℕ) : ℚ) with hd
    field_simp
    ring

/-- Pixel values of a band, rendered in its local frame, agree with the global
pixel values of the corresponding rows. -/
theorem render_pixel_value_band (bounds : ℕ × ℕ) (ul lr : Complex) (t h col r : ℕ)
    (hW : bounds.1 ≠ 0) (hh : h ≠ 0) :
    render_pixel_value (bounds.1, h)
        (pixel_to_point bounds (0, t) ul lr)
        (pixel_to_point bounds (bounds.1, t + h) ul lr) col r =
      render_pixel_value bounds ul lr col (t + r) := by
  rw [render_pixel_value, render_pixel_value,
    pixel_to_point_band bounds ul lr t h col r hW hh]

/-- A band rendered in its local frame is the row segment `[t, t + h)` of the
global image. -/
theorem rowsSeg_band (bounds : ℕ × ℕ) (ul lr : Complex) (t h : ℕ)
    (hW : bounds.1 ≠ 0) (hh : h ≠ 0) :
    rowsSeg (bounds.1, h)
        (pixel_to_point bounds (0, t) ul lr)
        (pixel_to_point bounds (bounds.1, t + h) ul lr) 0 h =
      rowsSeg bounds ul lr t h := by
  have key : ∀ (m r0 : ℕ),
      (List.range' r0 m).flatMap (fun r =>
        (List.range bounds.1).map fun col =>
          render_pixel_value (bounds.1, h)
            (pixel_to_point bounds (0, t) ul lr)
            (pixel_to_point bounds (bounds.1, t + h) ul lr) col r) =
      (List.range' (t + r0) m).flatMap (fun row =>
        (List.range bounds.1).map fun col => render_pixel_value bounds ul lr col row) := by
    intro m
    induction m with
    | zero => intro r0; simp
    | succ m ih =>
      intro r0
      rw [List.range'_succ, List.range'_succ, List.flatMap_cons, List.flatMap_cons]
      have harr : t + r0 + 1 = t + (r0 + 1) := by omega
      rw [harr, ih (r0 + 1)]
      congr 1
      apply List.map_congr_left
      intro col _
      exact render_pixel_value_band bounds ul lr t h col r0 hW hh
  have h0 : (t : ℕ) = t + 0 := by omega
  rw [rowsSeg, rowsSeg, key h 0, ← h0]

/-- One step of the chunking of the zero-filled buffer: the first band has
`width * min rows_per_band m` pixels and the rest is the chunking of the
remaining `m - rows_per_band` rows. -/
theorem chunksList_replicate_step (W rpb m : ℕ) (hW : 0 < W) (hrpb : 0 < rpb)
    (hm : 0 < m) :
    chunksList (rpb * W) (List.replicate (W * m) (0 : ℕ)) =
      List.replicate (W * (rpb ⊓ m)) 0 ::
        chunksList (rpb * W) (List.replicate (W * (m - rpb)) (0 : ℕ)) := by
  rw [chunksList_cons_of_ne _ (Nat.mul_pos hrpb hW).ne' _
    (List.length_pos.mp (by rw [List.length_replicate]; exact Nat.mul_pos hW hm))]
  congr 1
  · rw [List.take_replicate]
    congr 1
    rw [Nat.mul_comm rpb W, Nat.mul_min_mul_left]
  · rw [List.drop_replicate]
    congr 1
    rw [Nat.mul_sub, Nat.mul_comm rpb W]

/-- Concatenating adjacent row segments. -/
theorem rowsSeg_append (bounds : ℕ × ℕ) (ul lr : Complex) (t a b : ℕ) :
    rowsSeg bounds ul lr t a ++ rowsSeg bounds ul lr (t + a) b =
      rowsSeg bounds ul lr t (a + b) := by
  simp only [rowsSeg]
  rw [← List.flatMap_append]
  congr 1
  have h1 := List.range'_append t a b 1
  rw [Nat.one_mul] at h1
  rw [h1, Nat.add_comm b a]

/-- The band loop of `render_concurrent`, started at band index `i0` on the
chunking of the remaining `m` zero-filled rows, renders exactly rows
`[rows_per_band * i0, rows_per_band * i0 + m)` of the global image. -/
theorem runBands_chunks (bounds : ℕ × ℕ) (ul lr : Complex) (rpb : ℕ)
    (hW : 0 < bounds.1) (hrpb : 0 < rpb) :
    ∀ (m i0 : ℕ),
      runBands bounds ul lr rpb
          ((chunksList (rpb * bounds.1) (List.replicate (bounds.1 * m) (0 : ℕ))).enumFrom i0) =
        some (rowsSeg bounds ul lr (rpb * i0) m) := by
  have H : ∀ (n m i0 : ℕ), m ≤ n →
      runBands bounds ul lr rpb
          ((chunksList (rpb * bounds.1) (List.replicate (bounds.1 * m) (0 : ℕ))).enumFrom i0) =
        some (rowsSeg bounds ul lr (rpb * i0) m) := by
    intro n
    induction n with
    | zero =>
      intro m i0 hm
      have hm0 : m = 0 := by omega
      subst hm0
      rw [Nat.mul_zero, List.replicate_zero, chunksList_nil, List.enumFrom_nil]
      simp [runBands, rowsSeg]
    | succ n ih =>
      intro m i0 hm
      rcases Nat.eq_zero_or_pos m with hm0 | hmpos
      · subst hm0
        rw [Nat.mul_zero, List.replicate_zero, chunksList_nil, List.enumFrom_nil]
        simp [runBands, rowsSeg]
      · rw [show bounds.1 * m = bounds.1 * m from rfl,
          chunksList_replicate_step bounds.1 rpb m hW hrpb hmpos,
          List.enumFrom_cons]
        have hh : 0 < rpb ⊓ m := lt_min hrpb hmpos
        have hlen : (List.replicate (bounds.1 * (rpb ⊓ m)) (0 : ℕ)).length =
            bounds.1 * (rpb ⊓ m) := List.length_replicate _ _
        have hheight : (List.replicate (bounds.1 * (rpb ⊓ m)) (0 : ℕ)).length / bounds.1 =
            rpb ⊓ m := by
          rw [hlen]
          exact Nat.mul_div_cancel_left _ hW
        rw [runBands, hheight]
        have hrender := render_eq_some (bounds.1, rpb ⊓ m)
          (List.replicate (bounds.1 * (rpb ⊓ m)) (0 : ℕ))
          (pixel_to_point bounds (0, rpb * i0) ul lr)
          (pixel_to_point bounds (bounds.1, rpb * i0 + (rpb ⊓ m)) ul lr)
          (by rw [hlen])
        rw [hrender, ih (m - rpb) (i0 + 1) (by omega)]
        rw [rowsSeg_band bounds ul lr (rpb * i0) (rpb ⊓ m) hW.ne' hh.ne']
        have hsplit : rowsSeg bounds ul lr (rpb * i0) (rpb ⊓ m) ++
            rowsSeg bounds ul lr (rpb * (i0 + 1)) (m - rpb) =
            rowsSeg bounds ul lr (rpb * i0) m := by
          rcases le_or_lt m rpb with hle | hlt
          · have h1 : rpb ⊓ m = m := min_eq_right hle
            have h2 : m - rpb = 0 := by omega
            rw [h1, h2]
            simp [rowsSeg]
          · have h1 : rpb ⊓ m = rpb := min_eq_left (le_of_lt hlt)
            have h2 : rpb * (i0 + 1) = rpb * i0 + rpb := Nat.mul_succ rpb i0
            rw [h1, h2, rowsSeg_append]
            congr 1
            omega
        exact congrArg some hsplit
  exact fun m i0 => H m m i0 (le_refl m)

/-! ## Escape behaviour for points outside the radius-2 disc -/

theorem norm_sqr_nonneg (z : Complex) : 0 ≤ z.norm_sqr := by
  have h1 := mul_self_nonneg z.re
  have h2 := mul_self_nonneg z.im
  show 0 ≤ z.re * z.re + z.im * z.im
  linarith

/-- One orbit step at least squares-and-halves the norm, up to the parameter:
`|z² + c|² ≥ |z|⁴ / 2 - |c|²`. -/
theorem norm_sqr_step (z c : Complex) :
    z.norm_sqr * z.norm_sqr / 2 - c.norm_sqr ≤ (z * z + c).norm_sqr := by
  obtain ⟨a, b⟩ := z
  obtain ⟨p, q⟩ := c
  rw [Complex.mk_mul_mk, Complex.mk_add_mk, Complex.norm_sqr_mk, Complex.norm_sqr_mk,
    Complex.norm_sqr_mk]
  nlinarith [sq_nonneg (a * a - b * b + 2 * p), sq_nonneg (a * b + b * a + 2 * q),
    sq_nonneg (a * b - b * a)]

theorem orbit_one (c : Complex) : orbit c 1 = c := by
  ext
  · rw [orbit_succ, orbit_zero, Complex.mk_mul_mk]
    show 0 * 0 - 0 * 0 + c.re = c.re
    ring
  · rw [orbit_succ, orbit_zero, Complex.mk_mul_mk]
    show 0 * 0 + 0 * 0 + c.im = c.im
    ring

/-- Outside the radius-2 disc the squared norm of the orbit grows at least
geometrically, with ratio `|c|²/2 - 1 > 1`. -/
theorem orbit_norm_sqr_growth (c : Complex) (hc : 4 < c.norm_sqr) :
    ∀ n, c.norm_sqr * (c.norm_sqr / 2 - 1) ^ n ≤ (orbit c (n + 1)).norm_sqr := by
  intro n
  induction n with
  | zero =>
    rw [pow_zero, mul_one, orbit_one]
  | succ n ih =>
    have hg : (1 : ℚ) < c.norm_sqr / 2 - 1 := by nlinarith
    have hpow : (1 : ℚ) ≤ (c.norm_sqr / 2 - 1) ^ n := one_le_pow₀ hg.le
    have hA : c.norm_sqr ≤ c.norm_sqr * (c.norm_sqr / 2 - 1) ^ n := by nlinarith
    have hstep := norm_sqr_step (orbit c (n + 1)) c
    rw [← orbit_succ] at hstep
    have hpos : 0 ≤ (orbit c (n + 1)).norm_sqr := norm_sqr_nonneg _
    rw [pow_succ]
    nlinarith [ih, hstep, sq_nonneg ((orbit c (n + 1)).norm_sqr -
      c.norm_sqr * (c.norm_sqr / 2 - 1) ^ n)]

/-- For every point strictly outside the radius-2 disc there is a bound `B`
(depending on the point) such that every call with `limit ≥ B` reports an
escape at an index `k ≤ B`. -/
theorem escape_time_eventually_escapes (c : Complex) (hc : 4 < c.norm_sqr) :
    ∃ B : ℕ, ∀ limit, B ≤ limit → ∃ k, k ≤ B ∧ escape_time c limit = some k := by
  have hg : (1 : ℚ) < c.norm_sqr / 2 - 1 := by nlinarith
  set η : ℚ := c.norm_sqr / 2 - 2 with hη
  have hηpos : 0 < η := by rw [hη]; nlinarith
  obtain ⟨N, hN⟩ := exists_nat_gt (1 / η)
  have hNη : 1 < (N : ℚ) * η := by
    have h1 : (1 / η) * η < (N : ℚ) * η := by
      exact mul_lt_mul_of_pos_right hN hηpos
    rw [one_div_mul_cancel hηpos.ne'] at h1
    exact h1
  have hbern : 1 + (N : ℚ) * η ≤ (1 + η) ^ N := one_add_mul_le_pow (by nlinarith) N
  have hgη : c.norm_sqr / 2 - 1 = 1 + η := by rw [hη]; ring
  have hesc : 8 < (orbit c (N + 1)).norm_sqr := by
    have hgrow := orbit_norm_sqr_growth c hc N
    rw [hgη] at hgrow
    nlinarith [hgrow, hbern, hNη, hc]
  have hP : ∃ j, 8 < (orbit c j).norm_sqr := ⟨N + 1, hesc⟩
  refine ⟨N + 2, fun limit hlimit => ⟨Nat.find hP, ?_, ?_⟩⟩
  · have := Nat.find_min' hP hesc
    omega
  · rw [escape_time_eq_some_iff]
    refine ⟨?_, Nat.find_spec hP, fun j hj => ?_⟩
    · have := Nat.find_min' hP hesc
      omega
    · exact le_of_not_lt (Nat.find_min hP hj)

/-! ## Arbitrarily slow escape near `c = -2` -/

theorem realOrbit_succ (a : ℚ) (n : ℕ) :
    realOrbit a (n + 1) = realOrbit a n * realOrbit a n + a := rfl

/-- A real parameter keeps the orbit on the real line. -/
theorem orbit_real (a : ℚ) : ∀ n, orbit ⟨a, 0⟩ n = ⟨realOrbit a n, 0⟩ := by
  intro n
  induction n with
  | zero => rfl
  | succ n ih =>
    rw [orbit_succ, ih, Complex.mk_mul_mk, Complex.mk_add_mk, realOrbit_succ]
    ext
    · show realOrbit a n * realOrbit a n - 0 * 0 + a = _
      ring
    · show realOrbit a n * 0 + 0 * realOrbit a n + 0 = (0 : ℚ)
      ring

theorem pow_five_bound (m B : ℕ) (h : m ≤ B) :
    (5 : ℚ) ^ m * (1 / 5) ^ (B + 2) ≤ 1 / 25 := by
  have h1 : ((1 : ℚ) / 5) ^ (B + 2) = 1 / 5 ^ (B + 2) := by
    rw [div_pow, one_pow]
  have h2 : (5 : ℚ) ^ (B + 2) = 5 ^ B * 25 := by
    rw [pow_add]
    norm_num
  have h3 : (5 : ℚ) ^ m ≤ 5 ^ B := pow_le_pow_right₀ (by norm_num) h
  have h4 : (0 : ℚ) < 5 ^ B := by positivity
  rw [h1, h2, mul_one_div, div_le_div_iff₀ (by positivity) (by norm_num)]
  nlinarith [h3]

/-- The invariant for the slow orbit of `c = -(2 + ε)`, `ε = (1/5)^(B+2)`: from
index `2` on, the orbit value is `2 + δ` with `ε ≤ δ ≤ 4 · 5^m · ε`. -/
theorem slow_invariant (B : ℕ) :
    ∀ m, m ≤ B →
      (1 / 5 : ℚ) ^ (B + 2) ≤ realOrbit (-(2 + (1 / 5 : ℚ) ^ (B + 2))) (m + 2) - 2 ∧
      realOrbit (-(2 + (1 / 5 : ℚ) ^ (B + 2))) (m + 2) - 2 ≤
        4 * 5 ^ m * (1 / 5 : ℚ) ^ (B + 2) := by
  set ε : ℚ := (1 / 5 : ℚ) ^ (B + 2) with hεdef
  have hε : 0 < ε := by rw [hεdef]; positivity
  have hε1 : ε ≤ 1 / 25 := by
    have := pow_five_bound 0 B (Nat.zero_le B)
    rw [pow_zero, one_mul] at this
    exact this
  intro m
  induction m with
  | zero =>
    intro _
    have h2 : realOrbit (-(2 + ε)) 2 =
        (0 * 0 + -(2 + ε)) * (0 * 0 + -(2 + ε)) + -(2 + ε) := rfl
    rw [h2, pow_zero]
    constructor
    · nlinarith
    · nlinarith
  | succ m ih =>
    intro hm
    obtain ⟨hlo, hhi⟩ := ih (by omega)
    have hM : 4 * 5 ^ m * ε ≤ 4 / 25 := by
      have := pow_five_bound m B (by omega)
      nlinarith
    rw [realOrbit_succ]
    set u : ℚ := realOrbit (-(2 + ε)) (m + 2) with hu
    have h5 : (5 : ℚ) ^ (m + 1) = 5 ^ m * 5 := pow_succ 5 m
    have hp : (0 : ℚ) < 5 ^ m := by positivity
    constructor
    · nlinarith
    · rw [h5]
      nlinarith

/-- The point `c = -(2 + (1/5)^(B+2))` is outside the radius-2 disc yet survives
`B` iterations without tripping the `norm_sqr > 8` check. -/
theorem slow_escape (B : ℕ) :
    escape_time ⟨-(2 + (1 / 5 : ℚ) ^ (B + 2)), 0⟩ B = none := by
  rw [escape_time_eq_none_iff]
  intro j hj
  rw [orbit_real, Complex.norm_sqr_mk]
  set ε : ℚ := (1 / 5 : ℚ) ^ (B + 2) with hεdef
  have hε : 0 < ε := by rw [hεdef]; positivity
  have hε1 : ε ≤ 1 / 25 := by
    have := pow_five_bound 0 B (Nat.zero_le B)
    rw [pow_zero, one_mul] at this
    exact this
  match j, hj with
  | 0, _ =>
    show (0 : ℚ) * 0 + 0 * 0 ≤ 8
    norm_num
  | 1, _ =>
    show (0 * 0 + -(2 + ε)) * (0 * 0 + -(2 + ε)) + 0 * 0 ≤ 8
    nlinarith
  | m + 2, hj =>
    obtain ⟨hlo, hhi⟩ := slow_invariant B m (by omega)
    have hM : 4 * 5 ^ m * ε ≤ 4 / 25 := by
      have := pow_five_bound m B (by omega)
      nlinarith
    set u : ℚ := realOrbit (-(2 + ε)) (m + 2) with hu
    nlinarith

/-! ## Concrete evaluation helpers -/

theorem orbit_origin (n : ℕ) : orbit ⟨0, 0⟩ n = ⟨0, 0⟩ := by
  induction n with
  | zero => rfl
  | succ n ih =>
    rw [orbit_succ, ih, Complex.mk_mul_mk, Complex.mk_add_mk]
    ext <;> norm_num

theorem escape_time_origin (limit : ℕ) : escape_time ⟨0, 0⟩ limit = none := by
  rw [escape_time_eq_none_iff]
  intro j _
  rw [orbit_origin, Complex.norm_sqr_mk]
  norm_num

theorem pixel_to_point_origin : pixel_to_point (1, 1) (0, 0) ⟨0, 0⟩ ⟨0, 0⟩ = ⟨0, 0⟩ := by
  ext
  · rw [pixel_to_point_re]
    norm_num
  · rw [pixel_to_point_im]
    norm_num

/-- The spec's concrete scenario: a 1-by-1 render of the degenerate rectangle at
the origin paints the single pixel black. -/
theorem render_unit_example : render (1, 1) [5] ⟨0, 0⟩ ⟨0, 0⟩ = some [0] := by
  rw [render_eq_some (1, 1) [5] ⟨0, 0⟩ ⟨0, 0⟩ (by norm_num)]
  congr 1
  show (List.range' 0 1).flatMap (fun row =>
    (List.range 1).map fun col => render_pixel_value (1, 1) ⟨0, 0⟩ ⟨0, 0⟩ col row) = [0]
  simp only [show List.range' 0 1 = [0] from rfl, show List.range 1 = [0] from rfl,
    List.flatMap_cons, List.flatMap_nil, List.map_cons, List.map_nil, List.append_nil]
  rw [render_pixel_value, pixel_to_point_origin, escape_time_origin]

theorem escape_time_three (limit : ℕ) (h : 2 ≤ limit) :
    escape_time ⟨3, 0⟩ limit = some 1 := by
  rw [escape_time_eq_some_iff]
  refine ⟨by omega, ?_, ?_⟩
  · rw [orbit_one, Complex.norm_sqr_mk]
    norm_num
  · intro j hj
    have hj0 : j = 0 := by omega
    subst hj0
    rw [orbit_zero, Complex.norm_sqr_mk]
    norm_num

/-- Exact-arithmetic analogue of the corner-mapping property: with rational
arithmetic in place of `f64`, `pixel_to_point` maps pixel `(0,0)` to the
upper-left corner and pixel `(width, height)` to the lower-right corner. -/
theorem pixel_to_point_maps_corners (bounds : ℕ × ℕ) (ul lr : Complex)
    (hW : 0 < bounds.1) (hH : 0 < bounds.2) :
    pixel_to_point bounds (0, 0) ul lr = ul ∧
    pixel_to_point bounds (bounds.1, bounds.2) ul lr = lr := by
  have hW' : ((bounds.1 : ℕ) : ℚ) ≠ 0 := Nat.cast_ne_zero.mpr hW.ne'
  have hH' : ((bounds.2 : ℕ) : ℚ) ≠ 0 := Nat.cast_ne_zero.mpr hH.ne'
  constructor
  · ext
    · rw [pixel_to_point_re]
      norm_num
    · rw [pixel_to_point_im]
      norm_num
  · ext
    · rw [pixel_to_point_re]
      field_simp
    · rw [pixel_to_point_im]
      field_simp

/-! ## Claims -/

/-- C1: for every bounds with positive width and height and every pair of corner
points, `render_concurrent` returns pixel-for-pixel the buffer of a single
`render` call over one `width * height` buffer with the same global corners:
the band decomposition with per-band corner re-derivation through
`pixel_to_point` changes no pixel value. -/
theorem render_concurrent_matches_single_render (bounds : ℕ × ℕ) (ul lr : Complex)
    (hW : 0 < bounds.1) (hH : 0 < bounds.2) :
    render_concurrent bounds ul lr =
      render bounds (List.replicate (bounds.1 * bounds.2) 0) ul lr := by
  simp only [render_concurrent]
  rw [List.enum_eq_enumFrom,
    runBands_chunks bounds ul lr (bounds.2 / 8 + 1) hW (Nat.succ_pos _) bounds.2 0,
    Nat.mul_zero,
    render_eq_some bounds (List.replicate (bounds.1 * bounds.2) 0) ul lr
      (List.length_replicate _ _)]

theorem render_concurrent_matches_single_render_witness :
    render_concurrent (2, 3) ⟨-1, 1⟩ ⟨1, -1⟩ =
      render (2, 3) (List.replicate (2 * 3) 0) ⟨-1, 1⟩ ⟨1, -1⟩ :=
  render_concurrent_matches_single_render (2, 3) ⟨-1, 1⟩ ⟨1, -1⟩
    (by norm_num) (by norm_num)

/-- C2: `escape_time c limit` returns `some i` exactly when `i` is the smallest
index in `[0, limit)` whose orbit value `z_i` (`z_0 = 0`, `z_(n+1) = z_n² + c`,
the value checked before the update) has `|z_i|² > 8`, and `none` exactly when
no index below `limit` satisfies this. -/
theorem escape_time_first_escape_index (c : Complex) (limit : ℕ) :
    (∀ i, escape_time c limit = some i ↔
        i < limit ∧ 8 < (orbit c i).norm_sqr ∧
          ∀ j, j < i → ¬ 8 < (orbit c j).norm_sqr) ∧
    (escape_time c limit = none ↔ ∀ i, i < limit → ¬ 8 < (orbit c i).norm_sqr) := by
  constructor
  · intro i
    rw [escape_time_eq_some_iff]
    simp only [not_lt]
  · rw [escape_time_eq_none_iff]
    simp only [not_lt]

/-- C5: on a slice of the declared size, `render` stores at every position
`row * width + col` the value `0` when `escape_time` at the mapped point with
limit `255` is `none`, and `255 - count` when it is `some count`; positions not
of that shape are left unchanged. -/
theorem render_pixel_writes (bounds : ℕ × ℕ) (pixel : List ℕ) (ul lr : Complex)
    (out : List ℕ) (hlen : pixel.length = bounds.1 * bounds.2)
    (hout : render bounds pixel ul lr = some out) :
    (∀ row col, row < bounds.2 → col < bounds.1 →
        out[row * bounds.1 + col]? =
          some (match escape_time (pixel_to_point bounds (col, row) ul lr) 255 with
            | none => 0
            | some count => 255 - count)) ∧
    (∀ i, (∀ row col, row < bounds.2 → col < bounds.1 → i ≠ row * bounds.1 + col) →
        out[i]? = pixel[i]?) := by
  rw [render_eq_some bounds pixel ul lr hlen, Option.some_inj] at hout
  subst hout
  constructor
  · intro row col hrow hcol
    have hW : 0 < bounds.1 := by omega
    rw [rowsSeg_getElem? bounds ul lr hW]
    have hlt : row * bounds.1 + col < bounds.2 * bounds.1 := by
      have h1 : row + 1 ≤ bounds.2 := hrow
      have h2 : (row + 1) * bounds.1 ≤ bounds.2 * bounds.1 :=
        Nat.mul_le_mul_right bounds.1 h1
      rw [Nat.succ_mul] at h2
      omega
    rw [if_pos hlt]
    have hdiv : (row * bounds.1 + col) / bounds.1 = row := by
      rw [Nat.mul_comm row bounds.1, Nat.mul_add_div hW, Nat.div_eq_of_lt hcol,
        Nat.add_zero]
    have hmod : (row * bounds.1 + col) % bounds.1 = col := by
      rw [Nat.mul_comm row bounds.1, Nat.mul_add_mod, Nat.mod_eq_of_lt hcol]
    rw [hdiv, hmod, Nat.zero_add, render_pixel_value]
    cases h : escape_time (pixel_to_point bounds (col, row) ul lr) 255 with
    | none => rfl
    | some count =>
      have hc : count < 255 := escape_time_lt_limit h
      show some (255 - count % 256) = some (255 - count)
      rw [Nat.mod_eq_of_lt (by omega)]
  · intro i hi
    by_cases hlt : i < bounds.1 * bounds.2
    · exfalso
      have hW : 0 < bounds.1 := by
        rcases Nat.eq_zero_or_pos bounds.1 with h0 | h
        · rw [h0, Nat.zero_mul] at hlt; omega
        · exact h
      have hdm := Nat.div_add_mod i bounds.1
      have hmlt := Nat.mod_lt i hW
      have hrow : i / bounds.1 < bounds.2 := by
        rw [Nat.div_lt_iff_lt_mul hW]
        rw [Nat.mul_comm bounds.1 bounds.2] at hlt
        exact hlt
      exact hi (i / bounds.1) (i % bounds.1) hrow hmlt
        (by rw [Nat.mul_comm (i / bounds.1) bounds.1]; omega)
    · rw [List.getElem?_eq_none (by omega : pixel.length ≤ i),
        List.getElem?_eq_none]
      rw [rowsSeg_length]
      rw [Nat.mul_comm bounds.2 bounds.1]
      omega

theorem render_pixel_writes_witness :
    ([(0 : ℕ)])[0 * 1 + 0]? =
      some (match escape_time (pixel_to_point (1, 1) (0, 0) ⟨0, 0⟩ ⟨0, 0⟩) 255 with
        | none => 0
        | some count => 255 - count) :=
  (render_pixel_writes (1, 1) [5] ⟨0, 0⟩ ⟨0, 0⟩ [0] (by norm_num)
    render_unit_example).1 0 0 (by norm_num) (by norm_num)

/-- C6: raising the iteration limit preserves any reported escape index, and a
"no divergence" result can only turn into an escape at an index at or beyond
the old limit. -/
theorem escape_time_limit_monotone (c : Complex) (L1 L2 : ℕ) (h : L1 ≤ L2) :
    (∀ k, escape_time c L1 = some k → escape_time c L2 = some k) ∧
    (escape_time c L1 = none →
      escape_time c L2 = none ∨ ∃ k, L1 ≤ k ∧ escape_time c L2 = some k) := by
  constructor
  · intro k hk
    rw [escape_time_eq_some_iff] at hk ⊢
    exact ⟨by omega, hk.2.1, hk.2.2⟩
  · intro hn
    rw [escape_time_eq_none_iff] at hn
    cases h2 : escape_time c L2 with
    | none => exact Or.inl rfl
    | some k =>
      refine Or.inr ⟨k, ?_, rfl⟩
      have h3 := (escape_time_eq_some_iff c L2 k).mp h2
      by_contra hlt
      push_neg at hlt
      exact absurd h3.2.1 (not_lt.mpr (hn k (by omega)))

theorem escape_time_limit_monotone_witness : escape_time ⟨3, 0⟩ 4 = some 1 :=
  (escape_time_limit_monotone ⟨3, 0⟩ 2 4 (by norm_num)).1 1
    (escape_time_three 2 (le_refl 2))

/-- C8: `render` aborts (returns `none`, writing nothing) exactly when the slice
length differs from `width * height`, and completes on a matching length —
a mismatch is never silently truncated or padded. -/
theorem render_length_assertion (bounds : ℕ × ℕ) (pixel : List ℕ) (ul lr : Complex) :
    (pixel.length ≠ bounds.1 * bounds.2 → render bounds pixel ul lr = none) ∧
    (pixel.length = bounds.1 * bounds.2 → ∃ out, render bounds pixel ul lr = some out) := by
  constructor
  · intro h
    exact (render_eq_none_iff bounds pixel ul lr).mpr h
  · intro h
    exact ⟨_, render_eq_some bounds pixel ul lr h⟩

theorem render_length_assertion_witness : render (2, 1) [0] ⟨0, 0⟩ ⟨0, 0⟩ = none :=
  (render_length_assertion (2, 1) [0] ⟨0, 0⟩ ⟨0, 0⟩).1 (by norm_num)

/-- Every value `render` computes for a pixel is at most `254`. -/
theorem render_pixel_value_le (bounds : ℕ × ℕ) (ul lr : Complex) (col row : ℕ) :
    render_pixel_value bounds ul lr col row ≤ 254 := by
  rw [render_pixel_value]
  cases h : escape_time (pixel_to_point bounds (col, row) ul lr) 255 with
  | none => exact Nat.zero_le 254
  | some count =>
    have h1 : count < 255 := escape_time_lt_limit h
    have h2 : count ≠ 0 := by
      rintro rfl
      exact escape_time_ne_some_zero _ _ h
    show 255 - count % 256 ≤ 254
    rw [Nat.mod_eq_of_lt (by omega)]
    omega

/-- C10: `escape_time` never reports an escape at index `0` (the first checked
value is `z = 0`, whose squared norm is `0 ≤ 8`), so every byte `render` writes
is at most `254`: full white never appears. -/
theorem render_never_full_white :
    (∀ (c : Complex) (limit : ℕ), 1 ≤ limit → escape_time c limit ≠ some 0) ∧
    (∀ (bounds : ℕ × ℕ) (pixel : List ℕ) (ul lr : Complex) (out : List ℕ),
      render bounds pixel ul lr = some out → ∀ v ∈ out, v ≤ 254) := by
  constructor
  · intro c limit _
    exact escape_time_ne_some_zero c limit
  · intro bounds pixel ul lr out hout v hv
    have hlen : pixel.length = bounds.1 * bounds.2 := by
      by_contra h
      rw [(render_eq_none_iff bounds pixel ul lr).mpr h] at hout
      cases hout
    rw [render_eq_some bounds pixel ul lr hlen, Option.some_inj] at hout
    subst hout
    rw [List.mem_iff_getElem?] at hv
    obtain ⟨n, hn⟩ := hv
    rcases Nat.eq_zero_or_pos bounds.1 with h0 | hW
    · rw [List.getElem?_eq_none
        (by rw [rowsSeg_length, h0, Nat.mul_zero]; omega)] at hn
      cases hn
    · rw [rowsSeg_getElem? bounds ul lr hW] at hn
      by_cases hcond : n < bounds.2 * bounds.1
      · rw [if_pos hcond, Option.some_inj] at hn
        subst hn
        exact render_pixel_value_le bounds ul lr _ _
      · rw [if_neg hcond] at hn
        cases hn

theorem render_never_full_white_witness :
    escape_time ⟨0, 0⟩ 1 ≠ some 0 ∧ ∀ v ∈ [(0 : ℕ)], v ≤ 254 :=
  ⟨render_never_full_white.1 ⟨0, 0⟩ 1 (le_refl 1),
   render_never_full_white.2 (1, 1) [5] ⟨0, 0⟩ ⟨0, 0⟩ [0] render_unit_example⟩

/-- C3: `render_concurrent` partitions the `width * height` buffer with
`rows_per_band = height / 8 + 1` into consecutive sub-slices of
`rows_per_band * width` elements each, the last possibly shorter: the
sub-slices concatenate back to the buffer in order, every sub-slice except the
last is full-sized, none is empty, and every buffer index lies in exactly one
sub-slice. -/
theorem render_concurrent_partition (bounds : ℕ × ℕ) (L : List ℕ)
    (hL : L.length = bounds.1 * bounds.2) (hW : 0 < bounds.1) (hH : 0 < bounds.2) :
    ((chunksList ((bounds.2 / 8 + 1) * bounds.1) L).flatten = L) ∧
    (∀ (i : ℕ) (b b' : List ℕ), (chunksList ((bounds.2 / 8 + 1) * bounds.1) L)[i]? = some b →
        (chunksList ((bounds.2 / 8 + 1) * bounds.1) L)[i + 1]? = some b' →
        b.length = (bounds.2 / 8 + 1) * bounds.1) ∧
    (∀ (i : ℕ) (b : List ℕ), (chunksList ((bounds.2 / 8 + 1) * bounds.1) L)[i]? = some b →
        0 < b.length ∧ b.length ≤ (bounds.2 / 8 + 1) * bounds.1) ∧
    (∀ j, j < L.length → ∃! i : ℕ, ∃ b : List ℕ,
        (chunksList ((bounds.2 / 8 + 1) * bounds.1) L)[i]? = some b ∧
        (bounds.2 / 8 + 1) * bounds.1 * i ≤ j ∧
        j < (bounds.2 / 8 + 1) * bounds.1 * i + b.length) := by
  set csz := (bounds.2 / 8 + 1) * bounds.1 with hcszdef
  have hc0 : csz ≠ 0 := (Nat.mul_pos (Nat.succ_pos _) hW).ne'
  have hcpos : 0 < csz := Nat.pos_of_ne_zero hc0
  refine ⟨chunksList_flatten csz hc0 L, ?_, ?_, ?_⟩
  · intro i b b' hb hb'
    rw [chunksList_getElem? csz hc0] at hb hb'
    have hmul : csz * (i + 1) = csz * i + csz := Nat.mul_succ csz i
    have h2 : csz * (i + 1) < L.length := by
      by_contra h
      rw [if_neg h] at hb'
      cases hb'
    have h1 : csz * i < L.length := by omega
    rw [if_pos h1, Option.some_inj] at hb
    subst hb
    rw [List.length_take, List.length_drop, Nat.min_def]
    split_ifs <;> omega
  · intro i b hb
    rw [chunksList_getElem? csz hc0] at hb
    have h1 : csz * i < L.length := by
      by_contra h
      rw [if_neg h] at hb
      cases hb
    rw [if_pos h1, Option.some_inj] at hb
    subst hb
    rw [List.length_take, List.length_drop, Nat.min_def]
    constructor
    · split_ifs <;> omega
    · split_ifs <;> omega
  · intro j hj
    have hdm := Nat.div_add_mod j csz
    have hmlt := Nat.mod_lt j hcpos
    have hle : csz * (j / csz) ≤ j := by omega
    refine ⟨j / csz, ⟨(L.drop (csz * (j / csz))).take csz, ?_, hle, ?_⟩, ?_⟩
    · rw [chunksList_getElem? csz hc0, if_pos (by omega : csz * (j / csz) < L.length)]
    · rw [List.length_take, List.length_drop, Nat.min_def]
      split_ifs <;> omega
    · rintro i' ⟨b', hb', hle', hlt'⟩
      rw [chunksList_getElem? csz hc0] at hb'
      have h1 : csz * i' < L.length := by
        by_contra h
        rw [if_neg h] at hb'
        cases hb'
      rw [if_pos h1, Option.some_inj] at hb'
      subst hb'
      rw [List.length_take, List.length_drop, Nat.min_def] at hlt'
      have hup : j < csz * i' + csz := by
        by_cases hc : csz ≤ L.length - csz * i' <;> simp only [if_pos, if_neg, hc] at hlt' <;>
          omega
      have hcomm : csz * i' = i' * csz := Nat.mul_comm csz i'
      have hle2 : i' * csz ≤ j := by omega
      have hlt2 : j < (i' + 1) * csz := by
        rw [Nat.succ_mul]
        omega
      exact (Nat.div_eq_of_lt_le hle2 hlt2).symm

theorem render_concurrent_partition_witness :
    (chunksList (((1 : ℕ) / 8 + 1) * 1) [(0 : ℕ)]).flatten = [0] :=
  (render_concurrent_partition (1, 1) [0] (by norm_num) (by norm_num) (by norm_num)).1

/-- C7 (amended): for every point `c` with `|c| > 2` — in squared norms,
`norm_sqr c > 4` — there is a bound `B`, depending on the point, such that for
every `limit ≥ B` the call `escape_time c limit` reports an escape at an index
`k ≤ B`. -/
theorem escape_time_pointwise_escape_bound (c : Complex) (hc : 4 < c.norm_sqr) :
    ∃ B : ℕ, ∀ limit, B ≤ limit → ∃ k, k ≤ B ∧ escape_time c limit = some k :=
  escape_time_eventually_escapes c hc

theorem escape_time_pointwise_escape_bound_witness :
    ∃ B : ℕ, ∀ limit, B ≤ limit → ∃ k, k ≤ B ∧ escape_time ⟨3, 0⟩ limit = some k :=
  escape_time_pointwise_escape_bound ⟨3, 0⟩ (by rw [Complex.norm_sqr_mk]; norm_num)

/-- C7 (counterexample): there is no single bound `B` working for every point
with `|c| > 2`: the point `c = -(2 + (1/5)^(B+2))` has `|c| > 2` yet survives
`B` iterations, so `escape_time c B = none` rather than `some k` with `k ≤ B`. -/
theorem escape_time_no_uniform_escape_bound :
    ¬ ∃ B : ℕ, ∀ c : Complex, 4 < c.norm_sqr →
        ∀ limit, B ≤ limit → ∃ k, k ≤ B ∧ escape_time c limit = some k := by
  rintro ⟨B, hB⟩
  have hε : (0 : ℚ) < (1 / 5) ^ (B + 2) := by positivity
  have hc : (4 : ℚ) < Complex.norm_sqr ⟨-(2 + (1 / 5) ^ (B + 2)), 0⟩ := by
    rw [Complex.norm_sqr_mk]
    nlinarith
  obtain ⟨k, hk, hsome⟩ := hB ⟨-(2 + (1 / 5) ^ (B + 2)), 0⟩ hc B (le_refl B)
  rw [slow_escape B] at hsome
  cases hsome

/-- C9: every band that `render_concurrent` dispatches is non-empty and an
exact multiple of `width` pixels long, so the computed band height
`len / width` is exact and the length assertion in `render` passes for the
band; the final band carries `height % rows_per_band` rows when that remainder
is non-zero and a full `rows_per_band` rows when the division is exact — a
zero-length band is never created. -/
theorem render_concurrent_band_safety (bounds : ℕ × ℕ) (ul lr : Complex)
    (hW : 0 < bounds.1) (hH : 0 < bounds.2) :
    (∀ (i : ℕ) (b : List ℕ),
      (chunksList ((bounds.2 / 8 + 1) * bounds.1)
          (List.replicate (bounds.1 * bounds.2) (0 : ℕ)))[i]? = some b →
        b ≠ [] ∧ b.length % bounds.1 = 0 ∧
        (render (bounds.1, b.length / bounds.1) b ul lr).isSome = true) ∧
    (∀ b : List ℕ,
      (chunksList ((bounds.2 / 8 + 1) * bounds.1)
          (List.replicate (bounds.1 * bounds.2) (0 : ℕ))).getLast? = some b →
        b.length = if bounds.2 % (bounds.2 / 8 + 1) = 0
          then (bounds.2 / 8 + 1) * bounds.1
          else (bounds.2 % (bounds.2 / 8 + 1)) * bounds.1) := by
  set rpb := bounds.2 / 8 + 1 with hrpbdef
  set csz := rpb * bounds.1 with hcszdef
  have hc0 : csz ≠ 0 := (Nat.mul_pos (Nat.succ_pos _) hW).ne'
  constructor
  · intro i b hb
    rw [chunksList_getElem? csz hc0] at hb
    have h1 : csz * i < bounds.1 * bounds.2 := by
      by_contra h
      rw [if_neg (by rw [List.length_replicate]; exact h)] at hb
      cases hb
    rw [if_pos (by rw [List.length_replicate]; exact h1), List.drop_replicate,
      List.take_replicate, Option.some_inj] at hb
    subst hb
    have hkey : csz ⊓ (bounds.1 * bounds.2 - csz * i) =
        bounds.1 * (rpb ⊓ (bounds.2 - rpb * i)) := by
      have e1 : csz = bounds.1 * rpb := by rw [hcszdef]; ring
      have e2 : csz * i = bounds.1 * (rpb * i) := by rw [hcszdef]; ring
      rw [e2, e1, ← Nat.mul_sub, Nat.mul_min_mul_left]
    refine ⟨?_, ?_, ?_⟩
    · apply List.length_pos.mp
      rw [List.length_replicate]
      omega
    · rw [List.length_replicate, hkey, Nat.mul_mod_right]
    · rw [List.length_replicate, hkey, Nat.mul_div_cancel_left _ hW,
        render_eq_some (bounds.1, rpb ⊓ (bounds.2 - rpb * i)) _ ul lr
          (by rw [List.length_replicate])]
      rfl
  · intro b hb
    have hne : List.replicate (bounds.1 * bounds.2) (0 : ℕ) ≠ [] :=
      List.length_pos.mp (by rw [List.length_replicate]; exact Nat.mul_pos hW hH)
    have h := chunksList_getLast?_length csz hc0 _ hne b hb
    rw [List.length_replicate] at h
    have hmm : bounds.1 * bounds.2 % csz = bounds.1 * (bounds.2 % rpb) := by
      have e1 : csz = bounds.1 * rpb := by rw [hcszdef]; ring
      rw [e1]
      exact Nat.mul_mod_mul_left bounds.1 bounds.2 rpb
    rw [hmm] at h
    by_cases hz : bounds.2 % rpb = 0
    · rw [hz, Nat.mul_zero, if_pos rfl] at h
      rw [if_pos hz]
      exact h
    · rw [if_neg (Nat.mul_ne_zero hW.ne' hz)] at h
      rw [if_neg hz, h, Nat.mul_comm]

theorem render_concurrent_band_safety_witness :
    (render (1, ([(0 : ℕ)] : List ℕ).length / 1) [0] ⟨0, 0⟩ ⟨0, 0⟩).isSome = true :=
  ((render_concurrent_band_safety (1, 1) ⟨0, 0⟩ ⟨0, 0⟩ (by norm_num) (by norm_num)).1
    0 [0] (by norm_num [chunksList])).2.2

end Mandelbrot
